import Mathlib

/-!
Verification of the TradePulse portfolio accounting engine
(`tradepulse_dashboard.py`): the portfolio data model, the buy/sell trade
mutator, the valuation/P&L computation and the risk-floor metrics are
shallowly embedded over exact rational arithmetic, and the documented
properties are proved against that embedding.  Python dicts are embedded as
association lists with unique keys (insertion order preserved, as in
Python); Python floats are idealised as rationals.
-/

namespace TradePulse

/-- A holding in one ticker: `{"shares": ..., "avg_cost": ...}`. -/
structure Position where
  shares : ℚ
  avg_cost : ℚ
  deriving Repr, DecidableEq

/-- The portfolio aggregate: cash, the ticker → position mapping, and the
provenance metadata `start_date` / `total_invested`. -/
structure Portfolio where
  cash : ℚ
  positions : List (String × Position)
  start_date : String
  total_invested : ℚ
  deriving Repr, DecidableEq

/-- Dict lookup (`d[k]` / `d.get(k)`): first entry with the given key. -/
def lookupKey {α : Type} : List (String × α) → String → Option α
  | [], _ => none
  | (k, v) :: rest, t => if k = t then some v else lookupKey rest t

/-- Dict assignment `d[k] = v`: update in place if the key is present,
otherwise append the new entry (Python insertion order). -/
def setKey {α : Type} : List (String × α) → String → α → List (String × α)
  | [], t, v => [(t, v)]
  | (k, w) :: rest, t, v =>
    if k = t then (t, v) :: rest else (k, w) :: setKey rest t v

/-- Dict deletion `del d[k]`: remove the entry with the given key. -/
def eraseKey {α : Type} : List (String × α) → String → List (String × α)
  | [], _ => []
  | (k, v) :: rest, t => if k = t then rest else (k, v) :: eraseKey rest t

/-- The seeded default portfolio returned by `load_portfolio` when no
durable state exists (lines 62–75 of the source). -/
def defaultPortfolio : Portfolio where
  cash := 0
  positions :=
    [ ("NVDA", ⟨1506/1000, 18580/100⟩),
      ("NBIS", ⟨2640/1000, 9850/100⟩),
      ("SMCI", ⟨6711/1000, 2980/100⟩),
      ("PATH", ⟨899/100,   1010/100⟩),
      ("QQQ",  ⟨333/1000,  60130/100⟩),
      ("ARM",  ⟨0, 0⟩),
      ("AVGO", ⟨0, 0⟩) ]
  start_date := "2026-02-17"
  total_invested := 1000

/-- The two trade actions offered by the Record Trade radio button. -/
inductive TradeAction where
  | buy
  | sell
  deriving Repr, DecidableEq

/-- How a trade application can fail.  `keyError` is the uncontrolled
Python `KeyError` raised by `portfolio["positions"][trade_ticker]` when the
ticker is absent; `unknownPosition` is the explicit rejection the spec asks
a reimplementation to produce (never produced by this source). -/
inductive TradeError where
  | keyError
  | unknownPosition
  deriving Repr, DecidableEq

/-- The Buy branch of the Record Trade handler (lines 191–199): create a
zero position if the ticker is new, then fold the new dollars into the
weighted-average cost, add the traded shares, and debit cash. -/
def applyBuy (port : Portfolio) (ticker : String) (amount price : ℚ) :
    Portfolio :=
  let trade_shares := amount / price
  let pos := (lookupKey port.positions ticker).getD ⟨0, 0⟩
  let old_cost := pos.shares * pos.avg_cost
  let new_shares := pos.shares + trade_shares
  { port with
    positions := setKey port.positions ticker
      ⟨new_shares, (old_cost + amount) / new_shares⟩
    cash := port.cash - amount }

/-- The Sell branch of the Record Trade handler (lines 200–204): subtract
the traded shares, delete the position when the count falls to zero or
below, and credit cash.  Looking up an absent ticker raises `KeyError`
before anything is mutated. -/
def applySell (port : Portfolio) (ticker : String) (amount price : ℚ) :
    Except TradeError Portfolio :=
  let trade_shares := amount / price
  match lookupKey port.positions ticker with
  | none => .error .keyError
  | some pos =>
    let new_shares := pos.shares - trade_shares
    let positions' :=
      if new_shares ≤ 0 then eraseKey port.positions ticker
      else setKey port.positions ticker ⟨new_shares, pos.avg_cost⟩
    .ok { port with positions := positions', cash := port.cash + amount }

/-- The whole Record Trade handler body (lines 190–205) as a function of
the action. -/
def applyTrade (port : Portfolio) (ticker : String) (action : TradeAction)
    (amount price : ℚ) : Except TradeError Portfolio :=
  match action with
  | .buy => .ok (applyBuy port ticker amount price)
  | .sell => applySell port ticker amount price

/-- The durable state after a Record Trade click: `save_portfolio` runs
only when the handler reaches it, so a fault leaves the stored portfolio
untouched. -/
def recordTrade (stored : Portfolio) (ticker : String) (action : TradeAction)
    (amount price : ℚ) : Portfolio :=
  match applyTrade stored ticker action amount price with
  | .ok port' => port'
  | .error _ => stored

/-- Per-ticker entry of `position_values`. -/
structure PositionValue where
  value : ℚ
  pnl : ℚ
  price : ℚ
  deriving Repr, DecidableEq

/-- Result of the Portfolio Calc block: `total_value`, `position_values`
and `unrealized_pnl`. -/
structure ValuationResult where
  total_value : ℚ
  position_values : List (String × PositionValue)
  unrealized_pnl : ℚ
  deriving Repr, DecidableEq

/-- `data.get(ticker, {}).get("price", 0)`: a missing snapshot entry reads
as price `0`. -/
def priceOf (data : List (String × ℚ)) (t : String) : ℚ :=
  (lookupKey data t).getD 0

/-- One iteration of the Portfolio Calc loop (lines 114–121): a position
with positive shares contributes its market value and P&L to the running
totals; any other position is skipped. -/
def valuationStep (data : List (String × ℚ)) (acc : ValuationResult)
    (tp : String × Position) : ValuationResult :=
  if 0 < tp.2.shares then
    let price := priceOf data tp.1
    let value := tp.2.shares * price
    let pnl := value - tp.2.shares * tp.2.avg_cost
    { total_value := acc.total_value + value
      position_values := acc.position_values ++ [(tp.1, ⟨value, pnl, price⟩)]
      unrealized_pnl := acc.unrealized_pnl + pnl }
  else acc

/-- The Portfolio Calc block (lines 111–121): iterate the positions dict in
order, starting `total_value` at the cash balance. -/
def computeValuation (port : Portfolio) (data : List (String × ℚ)) :
    ValuationResult :=
  port.positions.foldl (valuationStep data) ⟨port.cash, [], 0⟩

/-- `buffer = total_value - 500` (line 124). -/
def riskBuffer (total_value : ℚ) : ℚ :=
  total_value - 500

/-- `risk_percent = max(0, min(100, (1000 - total_value) / 5))` (line 125). -/
def riskPercent (total_value : ℚ) : ℚ :=
  max 0 (min 100 ((1000 - total_value) / 5))

/-- The starting capital named by the spec ($1,000). -/
def startingCapital : ℚ := 1000

/-- The stop-loss floor named by the spec ($500). -/
def stopLossFloor : ℚ := 500

/-- Modelled from the spec: `clamp(0, 100, x)`. -/
def clamp (lo hi x : ℚ) : ℚ :=
  max lo (min hi x)

/-- Modelled from the spec: the parameterised risk-percent formula
`clamp(0, 100, (starting_capital − total_value) / (starting_capital −
stop_loss_floor) × 100)`. -/
def riskPercentSpec (total_value : ℚ) : ℚ :=
  clamp 0 100 ((startingCapital - total_value) / (startingCapital - stopLossFloor) * 100)

/-- A sequence of buys of one ticker, each given as (dollar amount, fill
price), applied left to right through the Buy branch. -/
def applyBuys (port : Portfolio) (ticker : String) (l : List (ℚ × ℚ)) :
    Portfolio :=
  l.foldl (fun pt dp => applyBuy pt ticker dp.1 dp.2) port

/-- The non-negative-share-count invariant over a positions mapping. -/
def allSharesNonneg (ps : List (String × Position)) : Prop :=
  ∀ tp ∈ ps, 0 ≤ tp.2.shares

/-! ## Association-list lemmas -/

theorem lookupKey_setKey_self {α : Type} (ps : List (String × α)) (t : String)
    (v : α) : lookupKey (setKey ps t v) t = some v := by
  induction ps with
  | nil => simp [setKey, lookupKey]
  | cons hd tl ih =>
    obtain ⟨k, w⟩ := hd
    by_cases h : k = t
    · simp [setKey, lookupKey, h]
    · simp [setKey, lookupKey, h, ih]

theorem lookupKey_setKey_ne {α : Type} (ps : List (String × α)) (t u : String)
    (v : α) (h : u ≠ t) : lookupKey (setKey ps t v) u = lookupKey ps u := by
  induction ps with
  | nil => simp [setKey, lookupKey, Ne.symm h]
  | cons hd tl ih =>
    obtain ⟨k, w⟩ := hd
    by_cases h1 : k = t
    · subst h1
      simp [setKey, lookupKey, Ne.symm h]
    · by_cases h2 : k = u <;> simp [setKey, lookupKey, h1, h2, ih, h]

theorem lookupKey_eraseKey_ne {α : Type} (ps : List (String × α)) (t u : String)
    (h : u ≠ t) : lookupKey (eraseKey ps t) u = lookupKey ps u := by
  induction ps with
  | nil => simp [eraseKey, lookupKey]
  | cons hd tl ih =>
    obtain ⟨k, w⟩ := hd
    by_cases h1 : k = t
    · subst h1
      simp [eraseKey, lookupKey, Ne.symm h]
    · by_cases h2 : k = u <;> simp [eraseKey, lookupKey, h1, h2, ih, h]

theorem lookupKey_eq_none_of_not_mem {α : Type} (ps : List (String × α))
    (t : String) (h : t ∉ ps.map Prod.fst) : lookupKey ps t = none := by
  induction ps with
  | nil => rfl
  | cons hd tl ih =>
    obtain ⟨k, w⟩ := hd
    simp only [List.map_cons, List.mem_cons, not_or] at h
    simp only [lookupKey, if_neg (Ne.symm h.1)]
    exact ih h.2

theorem lookupKey_eraseKey_self {α : Type} (ps : List (String × α)) (t : String)
    (hnd : (ps.map Prod.fst).Nodup) : lookupKey (eraseKey ps t) t = none := by
  induction ps with
  | nil => simp [eraseKey, lookupKey]
  | cons hd tl ih =>
    obtain ⟨k, w⟩ := hd
    simp only [List.map_cons, List.nodup_cons] at hnd
    by_cases h1 : k = t
    · subst h1
      simp only [eraseKey, if_pos rfl]
      exact lookupKey_eq_none_of_not_mem tl k hnd.1
    · simp only [eraseKey, if_neg h1, lookupKey, if_neg h1]
      exact ih hnd.2

theorem lookupKey_mem {α : Type} (ps : List (String × α)) (t : String) (v : α)
    (h : lookupKey ps t = some v) : (t, v) ∈ ps := by
  induction ps with
  | nil => simp [lookupKey] at h
  | cons hd tl ih =>
    obtain ⟨k, w⟩ := hd
    by_cases h1 : k = t
    · simp only [lookupKey, if_pos h1, Option.some.injEq] at h
      subst h1
      subst h
      exact List.mem_cons_self _ _
    · simp only [lookupKey, if_neg h1] at h
      exact List.mem_cons_of_mem _ (ih h)

theorem mem_setKey {α : Type} (ps : List (String × α)) (t : String) (v : α)
    (tp : String × α) (h : tp ∈ setKey ps t v) : tp = (t, v) ∨ tp ∈ ps := by
  induction ps with
  | nil =>
    simp only [setKey, List.mem_singleton] at h
    exact Or.inl h
  | cons hd tl ih =>
    obtain ⟨k, w⟩ := hd
    by_cases h1 : k = t
    · simp only [setKey, if_pos h1, List.mem_cons] at h
      rcases h with h | h
      · exact Or.inl h
      · exact Or.inr (List.mem_cons_of_mem _ h)
    · simp only [setKey, if_neg h1, List.mem_cons] at h
      rcases h with h | h
      · exact Or.inr (by simp [h])
      · rcases ih h with h' | h'
        · exact Or.inl h'
        · exact Or.inr (List.mem_cons_of_mem _ h')

theorem mem_eraseKey {α : Type} (ps : List (String × α)) (t : String)
    (tp : String × α) (h : tp ∈ eraseKey ps t) : tp ∈ ps := by
  induction ps with
  | nil => simp [eraseKey] at h
  | cons hd tl ih =>
    obtain ⟨k, w⟩ := hd
    by_cases h1 : k = t
    · exact List.mem_cons_of_mem _ (by simpa [eraseKey, h1] using h)
    · simp only [eraseKey, if_neg h1, List.mem_cons] at h
      rcases h with h | h
      · simp [h]
      · exact List.mem_cons_of_mem _ (ih h)

/-! ## Valuation lemmas -/

theorem foldl_valuationStep (data : List (String × ℚ))
    (ps : List (String × Position)) :
    ∀ acc : ValuationResult,
      ps.foldl (valuationStep data) acc =
        { total_value := acc.total_value +
            ((ps.filter fun tp => 0 < tp.2.shares).map
              (fun tp => tp.2.shares * priceOf data tp.1)).sum
          position_values := acc.position_values ++
            (ps.filter fun tp => 0 < tp.2.shares).map
              (fun tp => (tp.1, ⟨tp.2.shares * priceOf data tp.1,
                 tp.2.shares * priceOf data tp.1 - tp.2.shares * tp.2.avg_cost,
                 priceOf data tp.1⟩))
          unrealized_pnl := acc.unrealized_pnl +
            ((ps.filter fun tp => 0 < tp.2.shares).map
              (fun tp => tp.2.shares * priceOf data tp.1 -
                 tp.2.shares * tp.2.avg_cost)).sum } := by
  induction ps with
  | nil =>
    intro acc
    simp
  | cons hd tl ih =>
    intro acc
    by_cases h : 0 < hd.2.shares
    · rw [List.foldl_cons, ih]
      simp only [valuationStep, if_pos h, List.filter_cons, decide_eq_true_eq,
        List.map_cons, List.sum_cons, ValuationResult.mk.injEq]
      refine ⟨by ring, by simp, by ring⟩
    · rw [List.foldl_cons, ih]
      simp only [valuationStep, if_neg h, List.filter_cons, decide_eq_true_eq]

/-! ## Risk-metric lemmas -/

theorem riskPercent_eq_of_between (tv : ℚ) (h1 : 500 ≤ tv) (h2 : tv ≤ 1000) :
    riskPercent tv = (1000 - tv) / 5 := by
  unfold riskPercent
  have ha : (1000 - tv) / 5 ≤ 100 := by linarith
  have hb : 0 ≤ (1000 - tv) / 5 := by linarith
  rw [min_eq_right ha, max_eq_right hb]

/-! ## Buy-sequence lemmas -/

theorem lookupKey_applyBuy_self (port : Portfolio) (t : String) (d p : ℚ) :
    lookupKey (applyBuy port t d p).positions t =
      some ⟨((lookupKey port.positions t).getD ⟨0, 0⟩).shares + d / p,
            (((lookupKey port.positions t).getD ⟨0, 0⟩).shares *
               ((lookupKey port.positions t).getD ⟨0, 0⟩).avg_cost + d) /
              (((lookupKey port.positions t).getD ⟨0, 0⟩).shares + d / p)⟩ := by
  unfold applyBuy
  exact lookupKey_setKey_self ..

theorem applyBuys_tracks (t : String) (l : List (ℚ × ℚ))
    (hpos : ∀ dp ∈ l, 0 < dp.1 ∧ 0 < dp.2) :
    ∀ (port : Portfolio) (s c : ℚ), 0 < s →
      (lookupKey port.positions t).getD ⟨0, 0⟩ = ⟨s, c⟩ →
      (lookupKey (applyBuys port t l).positions t).getD ⟨0, 0⟩ =
        ⟨s + (l.map fun dp => dp.1 / dp.2).sum,
         (s * c + (l.map Prod.fst).sum) /
           (s + (l.map fun dp => dp.1 / dp.2).sum)⟩ := by
  induction l with
  | nil =>
    intro port s c hs hlook
    simp only [applyBuys, List.foldl_nil, List.map_nil, List.sum_nil, add_zero]
    rw [hlook, mul_div_cancel_left₀ c (ne_of_gt hs)]
  | cons dp rest ih =>
    intro port s c hs hlook
    have hdp := hpos dp (List.mem_cons_self dp rest)
    have htrade : 0 < dp.1 / dp.2 := div_pos hdp.1 hdp.2
    have hs' : 0 < s + dp.1 / dp.2 := by linarith
    have hrest : ∀ q ∈ rest, 0 < q.1 ∧ 0 < q.2 :=
      fun q hq => hpos q (List.mem_cons_of_mem dp hq)
    have hstep : (lookupKey (applyBuy port t dp.1 dp.2).positions t).getD ⟨0, 0⟩ =
        ⟨s + dp.1 / dp.2, (s * c + dp.1) / (s + dp.1 / dp.2)⟩ := by
      rw [lookupKey_applyBuy_self, hlook]
      rfl
    have happ : applyBuys port t (dp :: rest) =
        applyBuys (applyBuy port t dp.1 dp.2) t rest := rfl
    rw [happ, ih hrest (applyBuy port t dp.1 dp.2) (s + dp.1 / dp.2)
      ((s * c + dp.1) / (s + dp.1 / dp.2)) hs' hstep]
    have hcancel : (s + dp.1 / dp.2) * ((s * c + dp.1) / (s + dp.1 / dp.2)) =
        s * c + dp.1 := by
      rw [mul_comm, div_mul_cancel₀ _ (ne_of_gt hs')]
    rw [hcancel]
    simp only [List.map_cons, List.sum_cons, Position.mk.injEq]
    constructor
    · ring
    · congr 1 <;> ring

theorem avg_cost_after_buys (port : Portfolio) (t : String) (l : List (ℚ × ℚ))
    (hstart : (lookupKey port.positions t).getD ⟨0, 0⟩ = ⟨0, 0⟩)
    (hpos : ∀ dp ∈ l, 0 < dp.1 ∧ 0 < dp.2) :
    ((lookupKey (applyBuys port t l).positions t).getD ⟨0, 0⟩).avg_cost =
      (l.map Prod.fst).sum / (l.map fun dp => dp.1 / dp.2).sum := by
  cases l with
  | nil =>
    simp only [applyBuys, List.foldl_nil, List.map_nil, List.sum_nil, hstart, div_zero]
  | cons dp rest =>
    have hdp := hpos dp (List.mem_cons_self dp rest)
    have htrade : 0 < dp.1 / dp.2 := div_pos hdp.1 hdp.2
    have hrest : ∀ q ∈ rest, 0 < q.1 ∧ 0 < q.2 :=
      fun q hq => hpos q (List.mem_cons_of_mem dp hq)
    have hstep : (lookupKey (applyBuy port t dp.1 dp.2).positions t).getD ⟨0, 0⟩ =
        ⟨0 + dp.1 / dp.2, (0 * 0 + dp.1) / (0 + dp.1 / dp.2)⟩ := by
      rw [lookupKey_applyBuy_self, hstart]
      rfl
    have hstep' : (lookupKey (applyBuy port t dp.1 dp.2).positions t).getD ⟨0, 0⟩ =
        ⟨dp.1 / dp.2, dp.1 / (dp.1 / dp.2)⟩ := by
      rw [hstep]
      norm_num
    have happ : applyBuys port t (dp :: rest) =
        applyBuys (applyBuy port t dp.1 dp.2) t rest := rfl
    rw [happ, applyBuys_tracks t rest hrest (applyBuy port t dp.1 dp.2)
      (dp.1 / dp.2) (dp.1 / (dp.1 / dp.2)) htrade hstep']
    have hcancel : dp.1 / dp.2 * (dp.1 / (dp.1 / dp.2)) = dp.1 := by
      rw [mul_comm, div_mul_cancel₀ _ (ne_of_gt htrade)]
    simp only [List.map_cons, List.sum_cons, hcancel]

/-! ## Trade-mutator equation lemmas -/

theorem applyBuy_positions (port : Portfolio) (t : String) (d p : ℚ) :
    (applyBuy port t d p).positions =
      setKey port.positions t
        ⟨((lookupKey port.positions t).getD ⟨0, 0⟩).shares + d / p,
         (((lookupKey port.positions t).getD ⟨0, 0⟩).shares *
            ((lookupKey port.positions t).getD ⟨0, 0⟩).avg_cost + d) /
           (((lookupKey port.positions t).getD ⟨0, 0⟩).shares + d / p)⟩ := rfl

theorem applySell_eq_none (port : Portfolio) (t : String) (d p : ℚ)
    (h : lookupKey port.positions t = none) :
    applySell port t d p = .error .keyError := by
  unfold applySell
  rw [h]

theorem applySell_eq_some (port : Portfolio) (t : String) (d p : ℚ)
    (pos : Position) (h : lookupKey port.positions t = some pos) :
    applySell port t d p = .ok
      { port with
        positions :=
          if pos.shares - d / p ≤ 0 then eraseKey port.positions t
          else setKey port.positions t ⟨pos.shares - d / p, pos.avg_cost⟩
        cash := port.cash + d } := by
  unfold applySell
  rw [h]

/-! ## Claim theorems -/

/-- C5: the coded risk bar equals the spec's parameterised formula
`clamp(0, 100, (starting_capital − total_value) / (starting_capital −
stop_loss_floor) × 100)` with starting capital 1000 and floor 500; it is 0
whenever total_value ≥ starting capital and 100 whenever total_value ≤ the
floor, and the buffer equals total_value − floor. -/
theorem risk_formula (tv : ℚ) :
    riskPercent tv = riskPercentSpec tv ∧
    (startingCapital ≤ tv → riskPercent tv = 0) ∧
    (tv ≤ stopLossFloor → riskPercent tv = 100) ∧
    riskBuffer tv = tv - stopLossFloor := by
  refine ⟨?_, ?_, ?_, ?_⟩
  · unfold riskPercent riskPercentSpec clamp startingCapital stopLossFloor
    rw [show (1000 - tv) / ((1000:ℚ) - 500) * 100 = (1000 - tv) / 5 by ring]
  · intro h
    unfold startingCapital at h
    unfold riskPercent
    have ha : (1000 - tv) / 5 ≤ 0 := by linarith
    rw [min_eq_right (le_trans ha (by norm_num)), max_eq_left ha]
  · intro h
    unfold stopLossFloor at h
    unfold riskPercent
    have ha : (100:ℚ) ≤ (1000 - tv) / 5 := by linarith
    rw [min_eq_left ha]
    norm_num
  · unfold riskBuffer stopLossFloor
    rfl

/-- Witness for `risk_formula` at a concrete total_value. -/
theorem risk_formula_witness :
    riskPercent 400 = riskPercentSpec 400 ∧
    (startingCapital ≤ (400:ℚ) → riskPercent 400 = 0) ∧
    ((400:ℚ) ≤ stopLossFloor → riskPercent 400 = 100) ∧
    riskBuffer 400 = 400 - stopLossFloor :=
  risk_formula 400

/-- C6 counterexample: risk_percent is NOT strictly decreasing in
total_value — at total_values 2000 < 3000 both clamp to 0, so the claimed
strict decrease fails. -/
theorem risk_strict_decrease_counterexample :
    (2000:ℚ) < 3000 ∧ ¬ riskPercent 3000 < riskPercent 2000 := by
  constructor
  · norm_num
  · unfold riskPercent
    norm_num

/-- C6 (amended): increasing total_value strictly increases risk_buffer
and weakly decreases risk_percent; the decrease is strict when both
total_values lie between the floor (500) and the starting capital
(1000), i.e. where neither value is clamped. -/
theorem risk_monotone (v1 v2 : ℚ) (h : v1 < v2) :
    riskBuffer v1 < riskBuffer v2 ∧
    riskPercent v2 ≤ riskPercent v1 ∧
    (500 ≤ v1 → v2 ≤ 1000 → riskPercent v2 < riskPercent v1) := by
  refine ⟨?_, ?_, ?_⟩
  · unfold riskBuffer
    linarith
  · unfold riskPercent
    have hd : (1000 - v2) / 5 ≤ (1000 - v1) / 5 := by linarith
    exact max_le_max (le_refl 0) (min_le_min (le_refl 100) hd)
  · intro h1 h2
    rw [riskPercent_eq_of_between v1 h1 (by linarith),
      riskPercent_eq_of_between v2 (by linarith) h2]
    linarith

/-- Witness for `risk_monotone` at concrete total_values 600 < 900. -/
theorem risk_monotone_witness :
    riskBuffer 600 < riskBuffer 900 ∧
    riskPercent 900 ≤ riskPercent 600 ∧
    ((500:ℚ) ≤ 600 → (900:ℚ) ≤ 1000 → riskPercent 900 < riskPercent 600) :=
  risk_monotone 600 900 (by norm_num)

/-- C2: the Portfolio Calc block produces, for each position with positive
shares, `market_value = shares × price` and
`unrealized_pnl = market_value − shares × avg_cost`;
`total_value = cash + Σ market_value` and `total_pnl = Σ unrealized_pnl`
over exactly the positions with positive shares (zero-share positions
contribute nothing), and a ticker missing from the snapshot reads as price
0 rather than erroring. -/
theorem valuation_spec (port : Portfolio) (data : List (String × ℚ)) :
    (computeValuation port data).total_value =
      port.cash + ((port.positions.filter fun tp => 0 < tp.2.shares).map
        (fun tp => tp.2.shares * priceOf data tp.1)).sum ∧
    (computeValuation port data).unrealized_pnl =
      ((port.positions.filter fun tp => 0 < tp.2.shares).map
        (fun tp => tp.2.shares * priceOf data tp.1 -
          tp.2.shares * tp.2.avg_cost)).sum ∧
    (computeValuation port data).position_values =
      (port.positions.filter fun tp => 0 < tp.2.shares).map
        (fun tp => (tp.1, ⟨tp.2.shares * priceOf data tp.1,
           tp.2.shares * priceOf data tp.1 - tp.2.shares * tp.2.avg_cost,
           priceOf data tp.1⟩)) ∧
    ∀ t, lookupKey data t = none → priceOf data t = 0 := by
  unfold computeValuation
  rw [foldl_valuationStep]
  refine ⟨rfl, by simp, by simp, ?_⟩
  intro t ht
  unfold priceOf
  rw [ht]
  rfl

/-- Witness for `valuation_spec`: the default portfolio against a snapshot
holding only NVDA. -/
theorem valuation_spec_witness :
    (computeValuation defaultPortfolio [("NVDA", 200)]).total_value =
      defaultPortfolio.cash +
      ((defaultPortfolio.positions.filter fun tp => 0 < tp.2.shares).map
        (fun tp => tp.2.shares * priceOf [("NVDA", 200)] tp.1)).sum ∧
    (computeValuation defaultPortfolio [("NVDA", 200)]).unrealized_pnl =
      ((defaultPortfolio.positions.filter fun tp => 0 < tp.2.shares).map
        (fun tp => tp.2.shares * priceOf [("NVDA", 200)] tp.1 -
          tp.2.shares * tp.2.avg_cost)).sum ∧
    (computeValuation defaultPortfolio [("NVDA", 200)]).position_values =
      (defaultPortfolio.positions.filter fun tp => 0 < tp.2.shares).map
        (fun tp => (tp.1, ⟨tp.2.shares * priceOf [("NVDA", 200)] tp.1,
           tp.2.shares * priceOf [("NVDA", 200)] tp.1 -
             tp.2.shares * tp.2.avg_cost,
           priceOf [("NVDA", 200)] tp.1⟩)) ∧
    ∀ t, lookupKey [("NVDA", (200:ℚ))] t = none →
      priceOf [("NVDA", 200)] t = 0 :=
  valuation_spec defaultPortfolio [("NVDA", 200)]

/-- C1: for every portfolio, ticker and positive dollar_amount and
fill_price, a Buy succeeds and yields a portfolio in which the ticker's
position (read as ⟨0, 0⟩ when the ticker was absent) holds
`shares' = shares + dollar_amount / fill_price` and
`avg_cost' = (shares × avg_cost + dollar_amount) / shares'`, and
`cash' = cash − dollar_amount`. -/
theorem buy_trade_spec (port : Portfolio) (t : String) (d p : ℚ)
    (hd : 0 < d) (hp : 0 < p) :
    ∃ port', applyTrade port t .buy d p = .ok port' ∧
      lookupKey port'.positions t =
        some ⟨((lookupKey port.positions t).getD ⟨0, 0⟩).shares + d / p,
              (((lookupKey port.positions t).getD ⟨0, 0⟩).shares *
                 ((lookupKey port.positions t).getD ⟨0, 0⟩).avg_cost + d) /
                (((lookupKey port.positions t).getD ⟨0, 0⟩).shares + d / p)⟩ ∧
      port'.cash = port.cash - d :=
  ⟨applyBuy port t d p, rfl, lookupKey_applyBuy_self port t d p, rfl⟩

/-- Witness for `buy_trade_spec`: Buy NVDA $150 @ $200 on the default
portfolio. -/
theorem buy_trade_spec_witness :
    (0:ℚ) < 150 ∧ (0:ℚ) < 200 ∧
    (∃ port', applyTrade defaultPortfolio "NVDA" .buy 150 200 = .ok port' ∧
      lookupKey port'.positions "NVDA" =
        some ⟨((lookupKey defaultPortfolio.positions "NVDA").getD ⟨0, 0⟩).shares +
                150 / 200,
              (((lookupKey defaultPortfolio.positions "NVDA").getD ⟨0, 0⟩).shares *
                 ((lookupKey defaultPortfolio.positions "NVDA").getD ⟨0, 0⟩).avg_cost +
                 150) /
                (((lookupKey defaultPortfolio.positions "NVDA").getD ⟨0, 0⟩).shares +
                  150 / 200)⟩ ∧
      port'.cash = defaultPortfolio.cash - 150) :=
  ⟨by norm_num, by norm_num,
   buy_trade_spec defaultPortfolio "NVDA" 150 200 (by norm_num) (by norm_num)⟩

/-- C3: selling a held ticker credits `cash' = cash + dollar_amount`; the
position's share count drops by `dollar_amount / fill_price`, and when the
resulting count is ≤ 0 the ticker is removed from the mapping entirely
(the residual negative count is discarded). -/
theorem sell_trade_spec (port : Portfolio) (t : String) (pos : Position)
    (d p : ℚ) (hmem : lookupKey port.positions t = some pos)
    (hnd : (port.positions.map Prod.fst).Nodup) (hd : 0 < d) (hp : 0 < p) :
    ∃ port', applyTrade port t .sell d p = .ok port' ∧
      port'.cash = port.cash + d ∧
      (pos.shares - d / p ≤ 0 → lookupKey port'.positions t = none) ∧
      (0 < pos.shares - d / p →
        lookupKey port'.positions t =
          some ⟨pos.shares - d / p, pos.avg_cost⟩) := by
  refine ⟨_, applySell_eq_some port t d p pos hmem, rfl, ?_, ?_⟩
  · intro hle
    show lookupKey (if pos.shares - d / p ≤ 0 then _ else _) t = none
    rw [if_pos hle]
    exact lookupKey_eraseKey_self port.positions t hnd
  · intro hlt
    show lookupKey (if pos.shares - d / p ≤ 0 then _ else _) t = _
    rw [if_neg (not_le.mpr hlt)]
    exact lookupKey_setKey_self ..

/-- Witness for `sell_trade_spec`: Sell QQQ $100 @ $100 on the default
portfolio (0.333 − 1 ≤ 0, so the position is removed). -/
theorem sell_trade_spec_witness :
    (0:ℚ) < 100 ∧ (0:ℚ) < 100 ∧
    (∃ port', applyTrade defaultPortfolio "QQQ" .sell 100 100 = .ok port' ∧
      port'.cash = defaultPortfolio.cash + 100 ∧
      ((Position.mk (333/1000) (60130/100)).shares - 100 / 100 ≤ 0 →
        lookupKey port'.positions "QQQ" = none) ∧
      (0 < (Position.mk (333/1000) (60130/100)).shares - 100 / 100 →
        lookupKey port'.positions "QQQ" =
          some ⟨(Position.mk (333/1000) (60130/100)).shares - 100 / 100,
                (Position.mk (333/1000) (60130/100)).avg_cost⟩)) :=
  ⟨by norm_num, by norm_num,
   sell_trade_spec defaultPortfolio "QQQ" ⟨333/1000, 60130/100⟩ 100 100
     (by simp +decide [lookupKey, defaultPortfolio]) (by decide)
     (by norm_num) (by norm_num)⟩

/-- C4: a successful trade never touches `start_date` or
`total_invested`; every ticker other than the traded one keeps its
position unchanged; and a Sell that leaves the position in place keeps
its average cost unchanged. -/
theorem trade_frame (port : Portfolio) (t : String) (a : TradeAction)
    (d p : ℚ) (port' : Portfolio)
    (hnd : (port.positions.map Prod.fst).Nodup)
    (h : applyTrade port t a d p = .ok port') :
    port'.start_date = port.start_date ∧
    port'.total_invested = port.total_invested ∧
    (∀ u, u ≠ t → lookupKey port'.positions u = lookupKey port.positions u) ∧
    (a = .sell → ∀ pos', lookupKey port'.positions t = some pos' →
      ∃ pos, lookupKey port.positions t = some pos ∧
        pos'.avg_cost = pos.avg_cost) := by
  cases a with
  | buy =>
    have h' : (Except.ok (applyBuy port t d p) : Except TradeError Portfolio) =
        .ok port' := h
    injection h' with h''
    subst h''
    refine ⟨rfl, rfl, ?_, ?_⟩
    · intro u hu
      rw [applyBuy_positions]
      exact lookupKey_setKey_ne port.positions t u _ hu
    · intro hcon
      exact absurd hcon (by decide)
  | sell =>
    have h' : applySell port t d p = .ok port' := h
    cases hl : lookupKey port.positions t with
    | none =>
      rw [applySell_eq_none port t d p hl] at h'
      exact Except.noConfusion h'
    | some pos =>
      rw [applySell_eq_some port t d p pos hl] at h'
      injection h' with h''
      subst h''
      refine ⟨rfl, rfl, ?_, ?_⟩
      · intro u hu
        show lookupKey (if pos.shares - d / p ≤ 0 then _ else _) u = _
        by_cases hle : pos.shares - d / p ≤ 0
        · rw [if_pos hle]
          exact lookupKey_eraseKey_ne port.positions t u hu
        · rw [if_neg hle]
          exact lookupKey_setKey_ne port.positions t u _ hu
      · intro _ pos' hpos'
        refine ⟨pos, rfl, ?_⟩
        by_cases hle : pos.shares - d / p ≤ 0
        · rw [show lookupKey
              (if pos.shares - d / p ≤ 0 then eraseKey port.positions t
               else setKey port.positions t
                 ⟨pos.shares - d / p, pos.avg_cost⟩) t =
              lookupKey (eraseKey port.positions t) t from by rw [if_pos hle],
            lookupKey_eraseKey_self port.positions t hnd] at hpos'
          exact absurd hpos' (by simp)
        · rw [show lookupKey
              (if pos.shares - d / p ≤ 0 then eraseKey port.positions t
               else setKey port.positions t
                 ⟨pos.shares - d / p, pos.avg_cost⟩) t =
              lookupKey (setKey port.positions t
                ⟨pos.shares - d / p, pos.avg_cost⟩) t from by rw [if_neg hle],
            lookupKey_setKey_self] at hpos'
          injection hpos' with hpos''
          rw [← hpos'']

/-- Witness for `trade_frame`: Sell QQQ $100 @ $100 on the default
portfolio. -/
theorem trade_frame_witness :
    (recordTrade defaultPortfolio "QQQ" .sell 100 100).start_date =
      defaultPortfolio.start_date ∧
    (recordTrade defaultPortfolio "QQQ" .sell 100 100).total_invested =
      defaultPortfolio.total_invested ∧
    (∀ u, u ≠ "QQQ" →
      lookupKey (recordTrade defaultPortfolio "QQQ" .sell 100 100).positions u =
        lookupKey defaultPortfolio.positions u) ∧
    (TradeAction.sell = TradeAction.sell →
      ∀ pos', lookupKey
          (recordTrade defaultPortfolio "QQQ" .sell 100 100).positions "QQQ" =
          some pos' →
        ∃ pos, lookupKey defaultPortfolio.positions "QQQ" = some pos ∧
          pos'.avg_cost = pos.avg_cost) :=
  trade_frame defaultPortfolio "QQQ" .sell 100 100
    (recordTrade defaultPortfolio "QQQ" .sell 100 100) (by decide)
    (by
      have hs' : applyTrade defaultPortfolio "QQQ" TradeAction.sell 100 100 =
          Except.ok { defaultPortfolio with
            positions :=
              if (Position.mk (333/1000) (60130/100)).shares - 100 / 100 ≤ 0 then
                eraseKey defaultPortfolio.positions "QQQ"
              else setKey defaultPortfolio.positions "QQQ"
                ⟨(Position.mk (333/1000) (60130/100)).shares - 100 / 100,
                 (Position.mk (333/1000) (60130/100)).avg_cost⟩
            cash := defaultPortfolio.cash + 100 } :=
        applySell_eq_some defaultPortfolio "QQQ" 100 100 ⟨333/1000, 60130/100⟩
          (by simp +decide [lookupKey, defaultPortfolio])
      unfold recordTrade
      rw [hs'])

/-- C8 counterexample: selling a ticker with no position does NOT produce
the explicit `UnknownPosition` rejection the claim describes — the handler
hits the dict lookup and faults with the uncontrolled `KeyError` instead
(here at the concrete input TSLA, absent from the default portfolio). -/
theorem sell_unknown_rejection_counterexample :
    lookupKey defaultPortfolio.positions "TSLA" = none ∧
    applyTrade defaultPortfolio "TSLA" .sell 100 10 =
      .error TradeError.keyError ∧
    applyTrade defaultPortfolio "TSLA" .sell 100 10 ≠
      .error TradeError.unknownPosition := by
  have hl : lookupKey defaultPortfolio.positions "TSLA" = none := by
    simp +decide [lookupKey, defaultPortfolio]
  have he : applyTrade defaultPortfolio "TSLA" .sell 100 10 =
      .error TradeError.keyError :=
    applySell_eq_none defaultPortfolio "TSLA" 100 10 hl
  refine ⟨hl, he, ?_⟩
  rw [he]
  simp

/-- C8 (amended): selling a ticker with no existing position faults with
the uncontrolled `KeyError` of the dict lookup (not an explicit
`UnknownPosition` rejection), and the fault fires before any mutation or
persistence, so the stored portfolio is left unchanged. -/
theorem sell_unknown_faults (port : Portfolio) (t : String) (d p : ℚ)
    (habs : lookupKey port.positions t = none) :
    applyTrade port t .sell d p = .error TradeError.keyError ∧
    recordTrade port t .sell d p = port := by
  have he : applyTrade port t TradeAction.sell d p =
      .error TradeError.keyError := applySell_eq_none port t d p habs
  refine ⟨he, ?_⟩
  unfold recordTrade
  rw [he]

/-- Witness for `sell_unknown_faults`: selling META, absent from the
default portfolio. -/
theorem sell_unknown_faults_witness :
    lookupKey defaultPortfolio.positions "META" = none ∧
    (applyTrade defaultPortfolio "META" .sell 50 5 =
        .error TradeError.keyError ∧
      recordTrade defaultPortfolio "META" .sell 50 5 = defaultPortfolio) :=
  ⟨by simp +decide [lookupKey, defaultPortfolio],
   sell_unknown_faults defaultPortfolio "META" 50 5
     (by simp +decide [lookupKey, defaultPortfolio])⟩

/-- C9: non-negative share counts are preserved by every successful trade
with positive dollar amount and fill price — a Buy only adds positive
shares, and a Sell either leaves a positive count or deletes the position
rather than retaining a negative one. -/
theorem shares_nonneg_invariant (port : Portfolio) (t : String)
    (a : TradeAction) (d p : ℚ) (hd : 0 < d) (hp : 0 < p)
    (hinv : allSharesNonneg port.positions)
    (port' : Portfolio) (h : applyTrade port t a d p = .ok port') :
    allSharesNonneg port'.positions := by
  have htrade : 0 < d / p := div_pos hd hp
  cases a with
  | buy =>
    have h' : (Except.ok (applyBuy port t d p) : Except TradeError Portfolio) =
        .ok port' := h
    injection h' with h''
    subst h''
    intro tp htp
    rw [applyBuy_positions] at htp
    rcases mem_setKey _ _ _ _ htp with he | hm
    · subst he
      have hs : 0 ≤ ((lookupKey port.positions t).getD ⟨0, 0⟩).shares := by
        cases hl : lookupKey port.positions t with
        | none => simp
        | some pos =>
          simpa using hinv (t, pos) (lookupKey_mem _ _ _ hl)
      show 0 ≤ ((lookupKey port.positions t).getD ⟨0, 0⟩).shares + d / p
      linarith
    · exact hinv tp hm
  | sell =>
    have h' : applySell port t d p = .ok port' := h
    cases hl : lookupKey port.positions t with
    | none =>
      rw [applySell_eq_none port t d p hl] at h'
      exact Except.noConfusion h'
    | some pos =>
      rw [applySell_eq_some port t d p pos hl] at h'
      injection h' with h''
      subst h''
      intro tp htp
      by_cases hle : pos.shares - d / p ≤ 0
      · rw [show (if pos.shares - d / p ≤ 0 then eraseKey port.positions t
            else setKey port.positions t
              ⟨pos.shares - d / p, pos.avg_cost⟩) =
            eraseKey port.positions t from if_pos hle] at htp
        exact hinv tp (mem_eraseKey _ _ _ htp)
      · rw [show (if pos.shares - d / p ≤ 0 then eraseKey port.positions t
            else setKey port.positions t
              ⟨pos.shares - d / p, pos.avg_cost⟩) =
            setKey port.positions t ⟨pos.shares - d / p, pos.avg_cost⟩
            from if_neg hle] at htp
        rcases mem_setKey _ _ _ _ htp with he | hm
        · subst he
          show 0 ≤ pos.shares - d / p
          linarith [not_le.mp hle]
        · exact hinv tp hm

/-- Witness for `shares_nonneg_invariant`: Buy ARM $100 @ $10 on the
default portfolio (all of whose seeded positions have non-negative
shares). -/
theorem shares_nonneg_invariant_witness :
    allSharesNonneg
      (recordTrade defaultPortfolio "ARM" TradeAction.buy 100 10).positions :=
  shares_nonneg_invariant defaultPortfolio "ARM" .buy 100 10
    (by norm_num) (by norm_num)
    (by
      intro tp htp
      fin_cases htp <;> norm_num [defaultPortfolio])
    (recordTrade defaultPortfolio "ARM" .buy 100 10) rfl

/-- C10: the average-cost division in the Buy branch is always
well-defined — whenever every held position has non-negative shares (as
the seeded zero-share ARM/AVGO entries do) and dollar_amount and
fill_price are positive, the denominator `shares + trade_shares` is
strictly positive, and so is the share count the Buy branch stores. -/
theorem buy_denominator_pos (port : Portfolio) (t : String) (d p : ℚ)
    (hd : 0 < d) (hp : 0 < p)
    (hinv : ∀ tp ∈ port.positions, 0 ≤ tp.2.shares) :
    0 < ((lookupKey port.positions t).getD ⟨0, 0⟩).shares + d / p ∧
    0 < ((lookupKey (applyBuy port t d p).positions t).getD ⟨0, 0⟩).shares := by
  have htrade : 0 < d / p := div_pos hd hp
  have hs : 0 ≤ ((lookupKey port.positions t).getD ⟨0, 0⟩).shares := by
    cases hl : lookupKey port.positions t with
    | none => simp
    | some pos =>
      simpa using hinv (t, pos) (lookupKey_mem _ _ _ hl)
  constructor
  · linarith
  · rw [lookupKey_applyBuy_self]
    simp only [Option.getD_some]
    linarith

/-- Witness for `buy_denominator_pos`: Buy ARM $100 @ $10 on the default
portfolio, whose seeded ARM position carries exactly zero shares. -/
theorem buy_denominator_pos_witness :
    0 < ((lookupKey defaultPortfolio.positions "ARM").getD ⟨0, 0⟩).shares +
      100 / 10 ∧
    0 < ((lookupKey (applyBuy defaultPortfolio "ARM" 100 10).positions
      "ARM").getD ⟨0, 0⟩).shares :=
  buy_denominator_pos defaultPortfolio "ARM" 100 10 (by norm_num) (by norm_num)
    (by
      intro tp htp
      fin_cases htp <;> norm_num [defaultPortfolio])

/-- C7: for any sequence of buys of one ticker starting from a zero-share
position, at positive prices and positive dollar amounts, the final
average cost is the dollar-weighted harmonic combination
`Σdᵢ / Σ(dᵢ/pᵢ)`, and any permutation of the buy sequence yields the same
average cost. -/
theorem cost_basis_harmonic (port : Portfolio) (t : String)
    (l : List (ℚ × ℚ))
    (hstart : (lookupKey port.positions t).getD ⟨0, 0⟩ = ⟨0, 0⟩)
    (hpos : ∀ dp ∈ l, 0 < dp.1 ∧ 0 < dp.2) :
    ((lookupKey (applyBuys port t l).positions t).getD ⟨0, 0⟩).avg_cost =
      (l.map Prod.fst).sum / (l.map fun dp => dp.1 / dp.2).sum ∧
    ∀ l', l'.Perm l →
      ((lookupKey (applyBuys port t l').positions t).getD ⟨0, 0⟩).avg_cost =
        ((lookupKey (applyBuys port t l).positions t).getD ⟨0, 0⟩).avg_cost := by
  have hmain := avg_cost_after_buys port t l hstart hpos
  refine ⟨hmain, ?_⟩
  intro l' hperm
  have hpos' : ∀ dp ∈ l', 0 < dp.1 ∧ 0 < dp.2 :=
    fun dp hdp => hpos dp (hperm.mem_iff.mp hdp)
  rw [avg_cost_after_buys port t l' hstart hpos', hmain,
    (hperm.map Prod.fst).sum_eq, (hperm.map fun dp => dp.1 / dp.2).sum_eq]

/-- Witness for `cost_basis_harmonic`: two buys of ARM ($100 @ $10 then
$300 @ $30) starting from the default portfolio's zero-share ARM seed. -/
theorem cost_basis_harmonic_witness :
    ((lookupKey (applyBuys defaultPortfolio "ARM"
        [(100, 10), (300, 30)]).positions "ARM").getD ⟨0, 0⟩).avg_cost =
      (([(100, 10), (300, 30)] : List (ℚ × ℚ)).map Prod.fst).sum /
        (([(100, 10), (300, 30)] : List (ℚ × ℚ)).map
          fun dp => dp.1 / dp.2).sum ∧
    ∀ l', l'.Perm [((100:ℚ), (10:ℚ)), (300, 30)] →
      ((lookupKey (applyBuys defaultPortfolio "ARM" l').positions
          "ARM").getD ⟨0, 0⟩).avg_cost =
        ((lookupKey (applyBuys defaultPortfolio "ARM"
            [(100, 10), (300, 30)]).positions "ARM").getD ⟨0, 0⟩).avg_cost :=
  cost_basis_harmonic defaultPortfolio "ARM" [(100, 10), (300, 30)]
    (by simp +decide [lookupKey, defaultPortfolio])
    (by
      intro dp hdp
      fin_cases hdp <;> norm_num)

end TradePulse
